import Mathlib

/-!
Verification of the hft-service rolling-statistics core.

Shallow embedding of `src/lib.rs`:

* `TradingDataBuffer` — a bounded FIFO window (`VecDeque<f64>` becomes a
  `List ℚ` whose head is the front of the deque) with incrementally
  maintained `sum`, `sum_squares`, `min` and `max`.  The `f64::MAX` /
  `f64::MIN` sentinels stored in `min` / `max` while the window is empty
  are modelled by `⊤ : WithTop ℚ` and `⊥ : WithBot ℚ`: for every value
  the program can hold, `f64::MAX.min v = v` and `f64::MIN.max v = v`,
  exactly the behaviour of `⊤` / `⊥` under `min` / `max`.
* The `self.values.pop_front().unwrap()` inside `add` panics when the
  window is empty; a panic is modelled by `Option`: `add` returns `none`
  exactly when that `unwrap` is reached with an empty window.
* `TradingDataService` — the `HashMap<String, Vec<TradingDataBuffer>>`
  behind the `RwLock` becomes an association list; `add_batch_values`
  returns `Option (Except String Unit × TradingDataService)` (outer
  `none` = a panic inside some buffer, the `Except` mirrors the Rust
  `Result<(), String>`, and the returned service is the post-state —
  on the error path the state is returned unchanged, as the Rust method
  returns before touching the map).

All arithmetic is exact (ℚ), matching the claims' reading
"in exact real arithmetic".
-/

structure TradingDataBuffer where
  values : List ℚ
  capacity : ℕ
  min : WithTop ℚ
  max : WithBot ℚ
  sum : ℚ
  sum_squares : ℚ
deriving DecidableEq

namespace TradingDataBuffer

/-- Rust `TradingDataBuffer::new(capacity)`: empty window, sentinel extrema,
zero aggregates. -/
def new (capacity : ℕ) : TradingDataBuffer :=
  { values := []
    capacity := capacity
    min := ⊤
    max := ⊥
    sum := 0
    sum_squares := 0 }

/-- Rust `TradingDataBuffer::recalculate_min_max`: fold over the window starting
from the sentinels, exactly as the Rust `iter().fold((f64::MAX, f64::MIN), ...)`. -/
def recalculate_min_max (b : TradingDataBuffer) : TradingDataBuffer :=
  let mm := b.values.foldl
    (fun (mm : WithTop ℚ × WithBot ℚ) (v : ℚ) => (Min.min mm.1 ↑v, Max.max mm.2 ↑v))
    (⊤, ⊥)
  { b with min := mm.1, max := mm.2 }

/-- The unconditional tail of `TradingDataBuffer::add`: push to the back,
add to the aggregates, widen `min` / `max` by comparison. -/
def push (b : TradingDataBuffer) (value : ℚ) : TradingDataBuffer :=
  { b with
    values := b.values ++ [value]
    sum := b.sum + value
    sum_squares := b.sum_squares + value * value
    min := Min.min b.min ↑value
    max := Max.max b.max ↑value }

/-- The eviction block of `TradingDataBuffer::add`: `old_value` has just been
popped off the front (leaving `rest`); subtract it from the aggregates and, if
it equals the current `min` or the current `max`, rescan the remaining window. -/
def evict (b : TradingDataBuffer) (old_value : ℚ) (rest : List ℚ) : TradingDataBuffer :=
  let b1 : TradingDataBuffer :=
    { b with
      values := rest
      sum := b.sum - old_value
      sum_squares := b.sum_squares - old_value * old_value }
  if (↑old_value : WithTop ℚ) = b.min ∨ (↑old_value : WithBot ℚ) = b.max then
    recalculate_min_max b1
  else b1

/-- Rust `TradingDataBuffer::add`.  When the window is at (or above) capacity the
oldest value is evicted first; `pop_front().unwrap()` on an empty window is
a panic, i.e. `none`. -/
def add (b : TradingDataBuffer) (value : ℚ) : Option TradingDataBuffer :=
  if b.values.length ≥ b.capacity then
    match b.values with
    | [] => none
    | old_value :: rest => some (push (evict b old_value rest) value)
  else
    some (push b value)

/-- Rust `TradingDataBuffer::add_batch`: append each value in order. -/
def add_batch (b : TradingDataBuffer) (new_values : List ℚ) : Option TradingDataBuffer :=
  new_values.foldlM add b

/-- A sequence of `add_batch` calls, in order. -/
def ingestAll (b : TradingDataBuffer) (batches : List (List ℚ)) : Option TradingDataBuffer :=
  batches.foldlM add_batch b

end TradingDataBuffer

/-- Rust `StatsResponse`; `min` and `max` keep the sentinel-capable types of the
buffer fields they are copied from. -/
structure StatsResponse where
  min : WithTop ℚ
  max : WithBot ℚ
  last : ℚ
  avg : ℚ
  var : ℚ
deriving DecidableEq

/-- Rust `StatsResponse::default()`: all-zero statistics. -/
instance : Inhabited StatsResponse :=
  ⟨{ min := (0 : ℚ), max := (0 : ℚ), last := 0, avg := 0, var := 0 }⟩

namespace TradingDataBuffer

/-- Rust `TradingDataBuffer::get_stats`. -/
def get_stats (b : TradingDataBuffer) : StatsResponse :=
  if h : b.values = [] then default
  else
    let avg := b.sum / (b.values.length : ℚ)
    let variance := b.sum_squares / (b.values.length : ℚ) - avg * avg
    let last := b.values.getLast h
    { min := b.min, max := b.max, last := last, avg := avg, var := variance }

/-- The aggregate invariant tying the maintained fields of a buffer to the
contents of its window (claim C1's property, plus the size bound that the
FIFO discipline maintains). -/
def Inv (b : TradingDataBuffer) : Prop :=
  b.values.length ≤ b.capacity ∧
  b.sum = b.values.sum ∧
  b.sum_squares = (b.values.map fun v => v * v).sum ∧
  b.min = b.values.minimum ∧
  b.max = b.values.maximum

end TradingDataBuffer

/-- The window a capacity-`c` FIFO retains out of an appended stream `l`:
the most recent `min c l.length` values, in append order. -/
def windowSpec (c : ℕ) (l : List ℚ) : List ℚ :=
  l.drop (l.length - c)

/-- Rust `TradingDataService`: the `HashMap<String, Vec<TradingDataBuffer>>` behind
the `RwLock` is modelled as an association list (insertion order fixed for
determinism; `HashMap` iteration order is irrelevant to every claim). -/
structure TradingDataService where
  buffers : List (String × List TradingDataBuffer)
deriving DecidableEq

namespace TradingDataService

/-- Rust `TradingDataService::new()`: empty map. -/
def new : TradingDataService := ⟨[]⟩

/-- Rust `HashMap::get` on the association list. -/
def lookupSym : List (String × List TradingDataBuffer) → String →
    Option (List TradingDataBuffer)
  | [], _ => none
  | e :: es, sym => if e.1 = sym then some e.2 else lookupSym es sym

/-- Store a (possibly new) entry for a symbol, keeping every other entry. -/
def setEntry : List (String × List TradingDataBuffer) → String →
    List TradingDataBuffer → List (String × List TradingDataBuffer)
  | [], sym, bufs => [(sym, bufs)]
  | e :: es, sym, bufs =>
    if e.1 = sym then (sym, bufs) :: es else e :: setEntry es sym bufs

/-- Rust `(1..=8).map(|k| TradingDataBuffer::new(10usize.pow(k))).collect()`. -/
def newSymbolBuffers : List TradingDataBuffer :=
  (List.range 8).map fun k => TradingDataBuffer.new (10 ^ (k + 1))

/-- Rust `for buffer in symbol_buffers.iter_mut() { buffer.add_batch(&values); }`:
apply the same batch to every buffer, in order; a panic anywhere is `none`. -/
def addBatchAll : List TradingDataBuffer → List ℚ → Option (List TradingDataBuffer)
  | [], _ => some []
  | b :: bs, values =>
    match b.add_batch values, addBatchAll bs values with
    | some b', some bs' => some (b' :: bs')
    | _, _ => none

/-- Rust `TradingDataService::add_batch_values`.  The outer `Option` is a panic
inside a buffer; the `Except` is the Rust `Result<(), String>`; the returned
service is the post-state (the error path returns before touching the map). -/
def add_batch_values (s : TradingDataService) (symbol : String) (values : List ℚ) :
    Option (Except String Unit × TradingDataService) :=
  if values.length > 10000 then
    some (.error "Batch size exceeds maximum limit of 10000", s)
  else
    let symbol_buffers := (lookupSym s.buffers symbol).getD newSymbolBuffers
    (addBatchAll symbol_buffers values).map
      fun bufs => (.ok (), ⟨setEntry s.buffers symbol bufs⟩)

/-- Rust `TradingDataService::get_stats`. -/
def get_stats (s : TradingDataService) (symbol : String) (k : ℕ) :
    Except String StatsResponse :=
  if k < 1 ∨ k > 8 then
    .error "Invalid k input. Only values 1-8 are accepted."
  else
    match (lookupSym s.buffers symbol).bind (fun b => b.get? (k - 1)) with
    | some b => .ok b.get_stats
    | none => .error "Symbol not found"

/-- A sequence of ingest calls run against the service, threading the state
(each call's post-state feeds the next call). -/
def runOps (s : TradingDataService) : List (String × List ℚ) → Option TradingDataService
  | [] => some s
  | op :: ops => (s.add_batch_values op.1 op.2).bind fun r => runOps r.2 ops

/-- A well-formed per-symbol buffer vector: exactly the 8 tier buffers,
tier `i` (0-indexed here) of capacity `10 ^ (i + 1)`, each satisfying the
buffer invariant. -/
def TierList (bufs : List TradingDataBuffer) : Prop :=
  bufs.length = 8 ∧
  ∀ i (hi : i < bufs.length),
    (bufs.get ⟨i, hi⟩).capacity = 10 ^ (i + 1) ∧ (bufs.get ⟨i, hi⟩).Inv

/-- Every entry of the registry holds a well-formed tier vector. -/
def ServiceInv (s : TradingDataService) : Prop :=
  ∀ e ∈ s.buffers, TierList e.2

end TradingDataService


namespace TradingDataBuffer

theorem new_Inv (c : ℕ) : (new c).Inv := by
  refine ⟨by simp [new, Inv], by simp [new], by simp [new], ?_, ?_⟩
  · simp [new, List.minimum_nil]
  · simp [new, List.maximum_nil]

theorem foldl_minmax (l : List ℚ) (a : WithTop ℚ) (c : WithBot ℚ) :
    l.foldl (fun (mm : WithTop ℚ × WithBot ℚ) (v : ℚ) => (Min.min mm.1 ↑v, Max.max mm.2 ↑v))
        (a, c) =
      (Min.min a l.minimum, Max.max c l.maximum) := by
  induction l generalizing a c with
  | nil =>
    simp only [List.foldl_nil, List.minimum_nil, List.maximum_nil]
    rw [min_eq_left le_top, max_eq_left bot_le]
  | cons x xs ih =>
    rw [List.foldl_cons]
    dsimp only
    rw [ih, List.minimum_cons, List.maximum_cons, min_assoc, max_assoc]

theorem recalculate_min_max_def (b : TradingDataBuffer) :
    recalculate_min_max b =
      { b with min := b.values.minimum, max := b.values.maximum } := by
  simp only [recalculate_min_max, foldl_minmax]
  rw [min_eq_right le_top, max_eq_right bot_le]

theorem evict_def {b : TradingDataBuffer} {old : ℚ} {rest : List ℚ}
    (hv : b.values = old :: rest)
    (hmin : b.min = b.values.minimum) (hmax : b.max = b.values.maximum) :
    evict b old rest =
      { b with
        values := rest
        sum := b.sum - old
        sum_squares := b.sum_squares - old * old
        min := rest.minimum
        max := rest.maximum } := by
  rw [hv] at hmin hmax
  rw [List.minimum_cons] at hmin
  rw [List.maximum_cons] at hmax
  unfold evict
  split
  · rw [recalculate_min_max_def]
  · rename_i hne
    push_neg at hne
    obtain ⟨h1, h2⟩ := hne
    have hmin' : b.min = rest.minimum := by
      rcases min_choice (↑old : WithTop ℚ) rest.minimum with h | h
      · exact absurd (hmin.trans h).symm h1
      · exact hmin.trans h
    have hmax' : b.max = rest.maximum := by
      rcases max_choice (↑old : WithBot ℚ) rest.maximum with h | h
      · exact absurd (hmax.trans h).symm h2
      · exact hmax.trans h
    rw [← hmin', ← hmax']

theorem add_spec {b b' : TradingDataBuffer} {v : ℚ} (hInv : b.Inv)
    (h : b.add v = some b') :
    b'.Inv ∧ b'.capacity = b.capacity ∧
      b'.values = windowSpec b.capacity (b.values ++ [v]) := by
  obtain ⟨hlen, hsum, hsq, hmin, hmax⟩ := hInv
  unfold add at h
  by_cases hge : b.values.length ≥ b.capacity
  · rw [if_pos hge] at h
    rcases hv : b.values with _ | ⟨old, rest⟩
    · rw [hv] at h
      exact absurd h (by simp)
    · rw [hv] at h
      rw [Option.some_inj] at h
      subst h
      have hcap : b.capacity = rest.length + 1 := by
        rw [hv] at hlen hge
        simp only [List.length_cons] at hlen hge
        omega
      rw [evict_def hv hmin hmax]
      rw [hv] at hsum hsq
      simp only [List.sum_cons, List.map_cons] at hsum hsq
      refine ⟨⟨?_, ?_, ?_, ?_, ?_⟩, ?_, ?_⟩
      · simp [push, hcap]
      · simp only [push, List.sum_append, List.sum_cons, List.sum_nil]
        rw [hsum]; ring
      · simp only [push, List.map_append, List.sum_append, List.map_cons,
          List.sum_cons, List.map_nil, List.sum_nil]
        rw [hsq]; ring
      · simp only [push]
        rw [List.minimum_concat]
      · simp only [push]
        rw [List.maximum_concat]
      · simp [push]
      · simp only [push, windowSpec, hv, hcap, List.cons_append]
        have hone : (old :: (rest ++ [v])).length - (rest.length + 1) = 1 := by
          simp
        rw [hone, List.drop_succ_cons, List.drop_zero]
  · rw [if_neg hge] at h
    rw [Option.some_inj] at h
    subst h
    push_neg at hge
    refine ⟨⟨?_, ?_, ?_, ?_, ?_⟩, ?_, ?_⟩
    · simp only [push, List.length_append, List.length_cons, List.length_nil]
      omega
    · simp only [push, List.sum_append, List.sum_cons, List.sum_nil]
      rw [hsum]; ring
    · simp only [push, List.map_append, List.sum_append, List.map_cons,
        List.sum_cons, List.map_nil, List.sum_nil]
      rw [hsq]; ring
    · simp only [push]
      rw [hmin, List.minimum_concat]
    · simp only [push]
      rw [hmax, List.maximum_concat]
    · simp [push]
    · simp only [push, windowSpec]
      rw [show (b.values ++ [v]).length - b.capacity = 0 by simp; omega]
      simp

theorem add_total {b : TradingDataBuffer} (hc : 0 < b.capacity) (v : ℚ) :
    ∃ b', b.add v = some b' := by
  unfold add
  by_cases hge : b.values.length ≥ b.capacity
  · rcases hv : b.values with _ | ⟨old, rest⟩
    · rw [hv] at hge
      simp only [List.length_nil] at hge
      omega
    · rw [hv] at hge
      rw [if_pos hge]
      exact ⟨_, rfl⟩
  · rw [if_neg hge]
    exact ⟨_, rfl⟩

end TradingDataBuffer

theorem windowSpec_of_le {c : ℕ} {l : List ℚ} (h : l.length ≤ c) :
    windowSpec c l = l := by
  unfold windowSpec
  rw [Nat.sub_eq_zero_of_le h, List.drop_zero]

theorem windowSpec_append (c : ℕ) (l vs : List ℚ) :
    windowSpec c (windowSpec c l ++ vs) = windowSpec c (l ++ vs) := by
  unfold windowSpec
  rw [← List.drop_append_of_le_length (Nat.sub_le l.length c), List.drop_drop]
  congr 1
  simp only [List.length_drop, List.length_append]
  omega

theorem windowSpec_length (c : ℕ) (l : List ℚ) :
    (windowSpec c l).length = Min.min c l.length := by
  unfold windowSpec
  rw [List.length_drop]
  omega

namespace TradingDataBuffer

theorem add_batch_spec :
    ∀ {vs : List ℚ} {b b' : TradingDataBuffer}, b.Inv → b.add_batch vs = some b' →
      b'.Inv ∧ b'.capacity = b.capacity ∧
        b'.values = windowSpec b.capacity (b.values ++ vs) := by
  intro vs
  induction vs with
  | nil =>
    intro b b' hInv h
    simp only [add_batch, List.foldlM_nil, Option.pure_def, Option.some_inj] at h
    subst h
    exact ⟨hInv, rfl, by rw [List.append_nil, windowSpec_of_le (by simpa using hInv.1)]⟩
  | cons v vs ih =>
    intro b b' hInv h
    simp only [add_batch, List.foldlM_cons] at h
    rw [Option.bind_eq_bind, Option.bind_eq_some] at h
    obtain ⟨b1, hb1, hrest⟩ := h
    obtain ⟨hInv1, hcap1, hval1⟩ := add_spec hInv hb1
    obtain ⟨hInv', hcap', hval'⟩ := ih hInv1 hrest
    refine ⟨hInv', hcap'.trans hcap1, ?_⟩
    rw [hval', hval1, hcap1, windowSpec_append]
    simp [List.append_assoc]

theorem add_batch_total {b : TradingDataBuffer} (hInv : b.Inv)
    (hc : 0 < b.capacity) (vs : List ℚ) :
    ∃ b', b.add_batch vs = some b' := by
  induction vs generalizing b with
  | nil => exact ⟨b, rfl⟩
  | cons v vs ih =>
    obtain ⟨b1, hb1⟩ := add_total hc v
    obtain ⟨hInv1, hcap1, -⟩ := add_spec hInv hb1
    obtain ⟨b', hb'⟩ := ih hInv1 (hcap1 ▸ hc)
    refine ⟨b', ?_⟩
    simp only [add_batch, List.foldlM_cons, hb1, Option.bind_eq_bind,
      Option.some_bind]
    exact hb'

theorem ingestAll_spec :
    ∀ {bss : List (List ℚ)} {b b' : TradingDataBuffer},
      b.Inv → b.ingestAll bss = some b' →
      b'.Inv ∧ b'.capacity = b.capacity ∧
        b'.values = windowSpec b.capacity (b.values ++ bss.flatten) := by
  intro bss
  induction bss with
  | nil =>
    intro b b' hInv h
    simp only [ingestAll, List.foldlM_nil, Option.pure_def, Option.some_inj] at h
    subst h
    exact ⟨hInv, rfl, by
      rw [List.flatten_nil, List.append_nil, windowSpec_of_le (by simpa using hInv.1)]⟩
  | cons bs bss ih =>
    intro b b' hInv h
    simp only [ingestAll, List.foldlM_cons] at h
    rw [Option.bind_eq_bind, Option.bind_eq_some] at h
    obtain ⟨b1, hb1, hrest⟩ := h
    obtain ⟨hInv1, hcap1, hval1⟩ := add_batch_spec hInv hb1
    obtain ⟨hInv', hcap', hval'⟩ := ih hInv1 hrest
    refine ⟨hInv', hcap'.trans hcap1, ?_⟩
    rw [hval', hval1, hcap1, windowSpec_append]
    rw [List.flatten_cons, List.append_assoc]

theorem ingestAll_total {b : TradingDataBuffer} (hInv : b.Inv)
    (hc : 0 < b.capacity) (bss : List (List ℚ)) :
    ∃ b', b.ingestAll bss = some b' := by
  induction bss generalizing b with
  | nil => exact ⟨b, rfl⟩
  | cons bs bss ih =>
    obtain ⟨b1, hb1⟩ := add_batch_total hInv hc bs
    obtain ⟨hInv1, hcap1, -⟩ := add_batch_spec hInv hb1
    obtain ⟨b', hb'⟩ := ih hInv1 (hcap1 ▸ hc)
    refine ⟨b', ?_⟩
    simp only [ingestAll, List.foldlM_cons, hb1, Option.bind_eq_bind,
      Option.some_bind]
    exact hb'

theorem get_stats_of_ne_nil {b : TradingDataBuffer} (h : b.values ≠ []) :
    b.get_stats =
      { min := b.min
        max := b.max
        last := b.values.getLast h
        avg := b.sum / (b.values.length : ℚ)
        var := b.sum_squares / (b.values.length : ℚ) -
          b.sum / (b.values.length : ℚ) * (b.sum / (b.values.length : ℚ)) } := by
  unfold get_stats
  rw [dif_neg h]

theorem get_stats_of_nil {b : TradingDataBuffer} (h : b.values = []) :
    b.get_stats = { min := (0 : ℚ), max := (0 : ℚ), last := 0, avg := 0, var := 0 } := by
  unfold get_stats
  rw [dif_pos h]
  rfl

end TradingDataBuffer

namespace TradingDataService

theorem newSymbolBuffers_tierList : TierList newSymbolBuffers := by
  constructor
  · simp [newSymbolBuffers]
  · intro i hi
    have hi8 : i < 8 := by simpa [newSymbolBuffers] using hi
    have hget : newSymbolBuffers.get ⟨i, hi⟩ = TradingDataBuffer.new (10 ^ (i + 1)) := by
      simp [newSymbolBuffers]
    rw [hget]
    exact ⟨rfl, TradingDataBuffer.new_Inv _⟩

theorem addBatchAll_spec :
    ∀ {bufs bufs' : List TradingDataBuffer} {vs : List ℚ},
      addBatchAll bufs vs = some bufs' →
      bufs'.length = bufs.length ∧
      ∀ i (hi : i < bufs.length) (hi' : i < bufs'.length),
        (bufs.get ⟨i, hi⟩).add_batch vs = some (bufs'.get ⟨i, hi'⟩) := by
  intro bufs
  induction bufs with
  | nil =>
    intro bufs' vs h
    simp only [addBatchAll, Option.some_inj] at h
    subst h
    exact ⟨rfl, fun i hi => absurd hi (by simp)⟩
  | cons b bs ih =>
    intro bufs' vs h
    simp only [addBatchAll] at h
    rcases hb : b.add_batch vs with _ | b1 <;> rw [hb] at h
    · exact absurd h (by simp)
    rcases hbs : addBatchAll bs vs with _ | bs1 <;> rw [hbs] at h
    · exact absurd h (by simp)
    rw [Option.some_inj] at h
    subst h
    obtain ⟨hlen, hidx⟩ := ih hbs
    refine ⟨by simp [hlen], ?_⟩
    intro i hi hi'
    match i with
    | 0 => simpa using hb
    | j + 1 =>
      have hj : j < bs.length := by simpa using hi
      have hj' : j < bs1.length := by simpa using hi'
      simpa using hidx j hj hj'

theorem addBatchAll_total :
    ∀ {bufs : List TradingDataBuffer}, (∀ b ∈ bufs, b.Inv ∧ 0 < b.capacity) →
      ∀ vs : List ℚ, ∃ bufs', addBatchAll bufs vs = some bufs' := by
  intro bufs
  induction bufs with
  | nil => exact fun _ vs => ⟨[], rfl⟩
  | cons b bs ih =>
    intro hb vs
    obtain ⟨b1, hb1⟩ :=
      TradingDataBuffer.add_batch_total (hb b (by simp)).1 (hb b (by simp)).2 vs
    obtain ⟨bs1, hbs1⟩ := ih (fun x hx => hb x (by simp [hx])) vs
    exact ⟨b1 :: bs1, by simp only [addBatchAll, hb1, hbs1]⟩

theorem addBatchAll_tierList {bufs bufs' : List TradingDataBuffer} {vs : List ℚ}
    (ht : TierList bufs) (h : addBatchAll bufs vs = some bufs') :
    TierList bufs' := by
  obtain ⟨hlen8, hidx⟩ := ht
  obtain ⟨hlen, hget⟩ := addBatchAll_spec h
  refine ⟨hlen.trans hlen8, ?_⟩
  intro i hi'
  have hi : i < bufs.length := hlen ▸ hi'
  obtain ⟨hcap, hinv⟩ := hidx i hi
  obtain ⟨hinv', hcap', -⟩ := TradingDataBuffer.add_batch_spec hinv (hget i hi hi')
  exact ⟨hcap'.trans hcap, hinv'⟩

theorem tierList_mem_inv {bufs : List TradingDataBuffer} (ht : TierList bufs) :
    ∀ b ∈ bufs, b.Inv ∧ 0 < b.capacity := by
  intro b hb
  obtain ⟨i, hi, rfl⟩ := List.get_of_mem hb
  obtain ⟨hcap, hinv⟩ := ht.2 i.1 i.2
  refine ⟨hinv, ?_⟩
  rw [hcap]
  positivity

theorem lookupSym_setEntry_self (m : List (String × List TradingDataBuffer))
    (sym : String) (bufs : List TradingDataBuffer) :
    lookupSym (setEntry m sym bufs) sym = some bufs := by
  induction m with
  | nil => simp [setEntry, lookupSym]
  | cons e es ih =>
    by_cases he : e.1 = sym
    · simp [setEntry, lookupSym, he]
    · simp [setEntry, lookupSym, he, ih]

theorem lookupSym_setEntry_other (m : List (String × List TradingDataBuffer))
    {sym sym' : String} (h : sym' ≠ sym) (bufs : List TradingDataBuffer) :
    lookupSym (setEntry m sym bufs) sym' = lookupSym m sym' := by
  have hns : ¬ sym = sym' := fun hs => h hs.symm
  induction m with
  | nil => simp [setEntry, lookupSym, hns]
  | cons e es ih =>
    by_cases he : e.1 = sym
    · simp [setEntry, lookupSym, he, hns]
    · simp only [setEntry, he, if_false, lookupSym, ih]

theorem mem_setEntry {m : List (String × List TradingDataBuffer)}
    {sym : String} {bufs : List TradingDataBuffer} :
    ∀ e ∈ setEntry m sym bufs, e ∈ m ∨ e = (sym, bufs) := by
  induction m with
  | nil =>
    intro e he
    simp only [setEntry, List.mem_singleton] at he
    exact Or.inr he
  | cons f fs ih =>
    intro e he
    by_cases hf : f.1 = sym
    · simp only [setEntry, hf, if_true, List.mem_cons] at he
      rcases he with he | he
      · exact Or.inr he
      · exact Or.inl (List.mem_cons_of_mem _ he)
    · simp only [setEntry, hf, if_false, List.mem_cons] at he
      rcases he with he | he
      · exact Or.inl (he ▸ List.mem_cons_self _ _)
      · rcases ih e he with h | h
        · exact Or.inl (List.mem_cons_of_mem _ h)
        · exact Or.inr h

theorem lookupSym_mem {m : List (String × List TradingDataBuffer)} {sym : String}
    {bufs : List TradingDataBuffer} (h : lookupSym m sym = some bufs) :
    (sym, bufs) ∈ m := by
  induction m with
  | nil => simp [lookupSym] at h
  | cons e es ih =>
    by_cases he : e.1 = sym
    · rw [lookupSym, if_pos he, Option.some_inj] at h
      have he2 : (sym, bufs) = e := by rw [← he, ← h]
      rw [he2]
      exact List.mem_cons_self _ _
    · rw [lookupSym, if_neg he] at h
      exact List.mem_cons_of_mem _ (ih h)

end TradingDataService

namespace TradingDataService

theorem add_batch_values_reject {s : TradingDataService} {sym : String} {vs : List ℚ}
    (h : 10000 < vs.length) :
    s.add_batch_values sym vs =
      some (.error "Batch size exceeds maximum limit of 10000", s) := by
  unfold add_batch_values
  rw [if_pos h]

theorem lookup_getD_tierList {s : TradingDataService} (hs : ServiceInv s) (sym : String) :
    TierList ((lookupSym s.buffers sym).getD newSymbolBuffers) := by
  rcases hl : lookupSym s.buffers sym with _ | bufs
  · simpa using newSymbolBuffers_tierList
  · simpa using hs _ (lookupSym_mem hl)

theorem add_batch_values_accept {s : TradingDataService} {sym : String} {vs : List ℚ}
    (hs : ServiceInv s) (h : vs.length ≤ 10000) :
    ∃ bufs',
      addBatchAll ((lookupSym s.buffers sym).getD newSymbolBuffers) vs = some bufs' ∧
      s.add_batch_values sym vs = some (.ok (), ⟨setEntry s.buffers sym bufs'⟩) := by
  obtain ⟨bufs', hb⟩ :=
    addBatchAll_total (tierList_mem_inv (lookup_getD_tierList hs sym)) vs
  refine ⟨bufs', hb, ?_⟩
  simp only [add_batch_values, if_neg (show ¬ vs.length > 10000 by omega), hb,
    Option.map_some']

theorem add_batch_values_inv {s s' : TradingDataService} {sym : String} {vs : List ℚ}
    {r : Except String Unit} (hs : ServiceInv s)
    (h : s.add_batch_values sym vs = some (r, s')) : ServiceInv s' := by
  by_cases hlen : vs.length > 10000
  · rw [add_batch_values_reject hlen, Option.some_inj] at h
    injection h with h1 h2
    subst h2
    exact hs
  · push_neg at hlen
    obtain ⟨bufs', hb, hcall⟩ := add_batch_values_accept hs hlen
    rw [hcall, Option.some_inj] at h
    injection h with h1 h2
    subst h2
    intro e he
    rcases mem_setEntry e he with hmem | heq
    · exact hs e hmem
    · rw [heq]
      exact addBatchAll_tierList (lookup_getD_tierList hs sym) hb

theorem add_batch_values_lookup_none {s s' : TradingDataService} {sym : String}
    {vs : List ℚ} {r : Except String Unit} (hs : ServiceInv s)
    (h : s.add_batch_values sym vs = some (r, s')) (sym' : String) :
    lookupSym s'.buffers sym' = none ↔
      (lookupSym s.buffers sym' = none ∧ (sym' = sym → 10000 < vs.length)) := by
  by_cases hlen : vs.length > 10000
  · rw [add_batch_values_reject hlen, Option.some_inj] at h
    injection h with h1 h2
    subst h2
    simp [hlen]
  · push_neg at hlen
    obtain ⟨bufs', hb, hcall⟩ := add_batch_values_accept hs hlen
    rw [hcall, Option.some_inj] at h
    injection h with h1 h2
    subst h2
    by_cases hsym : sym' = sym
    · subst hsym
      simp [lookupSym_setEntry_self, fun _ : True => hlen]
    · simp [lookupSym_setEntry_other _ hsym, hsym]

theorem runOps_inv :
    ∀ {ops : List (String × List ℚ)} {s s' : TradingDataService},
      ServiceInv s → runOps s ops = some s' → ServiceInv s' := by
  intro ops
  induction ops with
  | nil =>
    intro s s' hs h
    rw [runOps, Option.some_inj] at h
    subst h
    exact hs
  | cons op ops ih =>
    intro s s' hs h
    rw [runOps, Option.bind_eq_some] at h
    obtain ⟨r, hr, hrest⟩ := h
    exact ih (add_batch_values_inv hs hr) hrest

theorem runOps_lookup_none :
    ∀ {ops : List (String × List ℚ)} {s s' : TradingDataService},
      ServiceInv s → runOps s ops = some s' → ∀ sym,
      (lookupSym s'.buffers sym = none ↔
        (lookupSym s.buffers sym = none ∧
          ∀ op ∈ ops, op.1 = sym → 10000 < op.2.length)) := by
  intro ops
  induction ops with
  | nil =>
    intro s s' hs h sym
    rw [runOps, Option.some_inj] at h
    subst h
    simp
  | cons op ops ih =>
    intro s s' hs h sym
    rw [runOps, Option.bind_eq_some] at h
    obtain ⟨r, hr, hrest⟩ := h
    rw [ih (add_batch_values_inv hs hr) hrest sym,
      add_batch_values_lookup_none hs hr sym, List.forall_mem_cons]
    constructor
    · rintro ⟨⟨h1, h2⟩, h3⟩
      exact ⟨h1, fun he => h2 he.symm, h3⟩
    · rintro ⟨h1, h2, h3⟩
      exact ⟨⟨h1, fun he => h2 he.symm⟩, h3⟩

theorem new_serviceInv : ServiceInv new := by
  intro e he
  simp [new] at he

end TradingDataService

/-- C1: for every buffer constructed with positive capacity and every sequence
of `add_batch` calls, whenever the window is non-empty the maintained fields
satisfy: `sum` is the sum of the window, `sum_squares` the sum of its squares,
`min` the window's minimum and `max` the window's maximum — the eviction rule
(rescan only when the evicted value equals the current min or max, widen by
comparison on push) preserves the aggregate invariant across every append. -/
theorem claim_C1_aggregate_invariant (c : ℕ) (_hc : 0 < c) (bss : List (List ℚ))
    (b : TradingDataBuffer) (h : (TradingDataBuffer.new c).ingestAll bss = some b)
    (_hne : b.values ≠ []) :
    b.sum = b.values.sum ∧
    b.sum_squares = (b.values.map fun v => v * v).sum ∧
    b.min = b.values.minimum ∧
    b.max = b.values.maximum := by
  obtain ⟨⟨-, h1, h2, h3, h4⟩, -, -⟩ :=
    TradingDataBuffer.ingestAll_spec (TradingDataBuffer.new_Inv c) h
  exact ⟨h1, h2, h3, h4⟩

/-- Witness for C1 at capacity 2 with the single batch `[3, 1]`. -/
theorem claim_C1_aggregate_invariant_witness :
    (0 : ℕ) < 2 ∧
    (TradingDataBuffer.new 2).ingestAll [[3, 1]] =
      some ⟨[3, 1], 2, ((1 : ℚ) : WithTop ℚ), ((3 : ℚ) : WithBot ℚ), 4, 10⟩ ∧
    (⟨[3, 1], 2, ((1 : ℚ) : WithTop ℚ), ((3 : ℚ) : WithBot ℚ), 4, 10⟩ :
        TradingDataBuffer).sum = [(3 : ℚ), 1].sum := by
  refine ⟨by decide, by with_unfolding_all decide, ?_⟩
  exact (claim_C1_aggregate_invariant 2 (by decide) [[3, 1]]
    ⟨[3, 1], 2, ((1 : ℚ) : WithTop ℚ), ((3 : ℚ) : WithBot ℚ), 4, 10⟩
    (by with_unfolding_all decide) (by decide)).1

/-- C2: with positive capacity `c` and more than `c` appended values in total,
the window holds exactly the most recent `c` values in append order, and the
snapshot's `last` field is the most recently appended value. -/
theorem claim_C2_fifo_window (c : ℕ) (_hc : 0 < c) (bss : List (List ℚ))
    (b : TradingDataBuffer) (h : (TradingDataBuffer.new c).ingestAll bss = some b)
    (hn : c < bss.flatten.length) :
    b.values = bss.flatten.drop (bss.flatten.length - c) ∧
    b.values.length = c ∧
    bss.flatten.getLast? = some b.get_stats.last := by
  obtain ⟨-, hcap, hval⟩ :=
    TradingDataBuffer.ingestAll_spec (TradingDataBuffer.new_Inv c) h
  rw [TradingDataBuffer.new] at hcap hval
  simp only [List.nil_append] at hval
  have hlen : b.values.length = c := by
    rw [hval, windowSpec_length]
    omega
  have hne : b.values ≠ [] := by
    intro he
    rw [he] at hlen
    simp at hlen
    omega
  refine ⟨by rw [hval, windowSpec], hlen, ?_⟩
  rw [TradingDataBuffer.get_stats_of_ne_nil hne]
  have hlast : b.values.getLast? = bss.flatten.getLast? := by
    rw [hval, windowSpec, List.getLast?_drop,
      if_neg (show ¬ bss.flatten.length ≤ bss.flatten.length - c by omega)]
  rw [← hlast, List.getLast?_eq_getLast_of_ne_nil hne]

/-- Witness for C2 at capacity 1 with the single batch `[4, 7]`. -/
theorem claim_C2_fifo_window_witness :
    (0 : ℕ) < 1 ∧
    (TradingDataBuffer.new 1).ingestAll [[4, 7]] =
      some ⟨[7], 1, ((7 : ℚ) : WithTop ℚ), ((7 : ℚ) : WithBot ℚ), 7, 49⟩ ∧
    1 < ([[4, 7]] : List (List ℚ)).flatten.length ∧
    ([7] : List ℚ) = ([[4, 7]] : List (List ℚ)).flatten.drop
      (([[4, 7]] : List (List ℚ)).flatten.length - 1) := by
  refine ⟨by decide, by with_unfolding_all decide, by decide, ?_⟩
  exact (claim_C2_fifo_window 1 (by decide) [[4, 7]]
    ⟨[7], 1, ((7 : ℚ) : WithTop ℚ), ((7 : ℚ) : WithBot ℚ), 7, 49⟩
    (by with_unfolding_all decide) (by decide)).1

/-- C3: on a non-empty window the snapshot returns the maintained `min` and
`max`, `last` = the back of the window, `avg = sum / n`, and
`var = sum_squares / n − avg²` (population variance); combined with the
aggregate invariant, `avg` is the arithmetic mean of the retained values. -/
theorem claim_C3_snapshot_formulas (c : ℕ) (_hc : 0 < c) (bss : List (List ℚ))
    (b : TradingDataBuffer) (h : (TradingDataBuffer.new c).ingestAll bss = some b)
    (hne : b.values ≠ []) :
    b.get_stats.min = b.min ∧
    b.get_stats.max = b.max ∧
    b.values.getLast? = some b.get_stats.last ∧
    b.get_stats.avg = b.sum / (b.values.length : ℚ) ∧
    b.get_stats.var = b.sum_squares / (b.values.length : ℚ) -
      b.get_stats.avg * b.get_stats.avg ∧
    b.get_stats.avg = b.values.sum / (b.values.length : ℚ) := by
  obtain ⟨⟨-, hsum, -, -, -⟩, -, -⟩ :=
    TradingDataBuffer.ingestAll_spec (TradingDataBuffer.new_Inv c) h
  rw [TradingDataBuffer.get_stats_of_ne_nil hne]
  exact ⟨rfl, rfl, List.getLast?_eq_getLast_of_ne_nil hne, rfl, rfl, by rw [hsum]⟩

/-- Witness for C3 at capacity 1 with the single batch `[4, 7]`. -/
theorem claim_C3_snapshot_formulas_witness :
    (0 : ℕ) < 1 ∧
    (TradingDataBuffer.new 1).ingestAll [[4, 7]] =
      some ⟨[7], 1, ((7 : ℚ) : WithTop ℚ), ((7 : ℚ) : WithBot ℚ), 7, 49⟩ ∧
    (⟨[7], 1, ((7 : ℚ) : WithTop ℚ), ((7 : ℚ) : WithBot ℚ), 7, 49⟩ :
        TradingDataBuffer).values ≠ [] ∧
    (⟨[7], 1, ((7 : ℚ) : WithTop ℚ), ((7 : ℚ) : WithBot ℚ), 7, 49⟩ :
        TradingDataBuffer).get_stats.min = ((7 : ℚ) : WithTop ℚ) := by
  refine ⟨by decide, by with_unfolding_all decide, by decide, ?_⟩
  exact (claim_C3_snapshot_formulas 1 (by decide) [[4, 7]]
    ⟨[7], 1, ((7 : ℚ) : WithTop ℚ), ((7 : ℚ) : WithBot ℚ), 7, 49⟩
    (by with_unfolding_all decide) (by decide)).1

/-- C7: whenever the window is empty (in particular for a freshly constructed
buffer) the snapshot is all zeros — the `f64::MAX` / `f64::MIN` sentinels held
in the `min` / `max` fields are never exposed to the caller. -/
theorem claim_C7_empty_snapshot (b : TradingDataBuffer) (h : b.values = []) :
    b.get_stats = { min := (0 : ℚ), max := (0 : ℚ), last := 0, avg := 0, var := 0 } :=
  TradingDataBuffer.get_stats_of_nil h

/-- Witness for C7 on a freshly constructed capacity-5 buffer. -/
theorem claim_C7_empty_snapshot_witness :
    (TradingDataBuffer.new 5).values = ([] : List ℚ) ∧
    (TradingDataBuffer.new 5).get_stats =
      { min := (0 : ℚ), max := (0 : ℚ), last := 0, avg := 0, var := 0 } :=
  ⟨rfl, claim_C7_empty_snapshot (TradingDataBuffer.new 5) rfl⟩

/-- C8: appending `[3,1,5,2,4]` then `[6,3]` into a capacity-5 buffer yields a
snapshot with `min = 2` and `max = 6` (both original extrema get evicted and
are correctly recomputed). -/
theorem claim_C8_extrema_recomputed :
    ((TradingDataBuffer.new 5).ingestAll [[3, 1, 5, 2, 4], [6, 3]]).map
        (fun b => (b.get_stats.min, b.get_stats.max)) =
      some (((2 : ℚ) : WithTop ℚ), ((6 : ℚ) : WithBot ℚ)) := by
  with_unfolding_all decide

/-- C10: with capacity ≥ 1 the `pop_front().unwrap()` inside `add` is never
reached on an empty window under any sequence of `add_batch` calls (appends
never panic); with capacity 0 the very first single-value append reaches that
`unwrap` on the empty window and panics. -/
theorem claim_C10_pop_front_safety :
    (∀ c : ℕ, 1 ≤ c → ∀ bss : List (List ℚ),
      ((TradingDataBuffer.new c).ingestAll bss).isSome = true) ∧
    (∀ v : ℚ, (TradingDataBuffer.new 0).add v = none) := by
  constructor
  · intro c hc bss
    obtain ⟨b, hb⟩ :=
      TradingDataBuffer.ingestAll_total (TradingDataBuffer.new_Inv c) hc bss
    rw [hb]
    rfl
  · intro v
    rfl

/-- Witness for C10: capacity 1 accepts `[[5]]`; capacity 0 panics on `7`. -/
theorem claim_C10_pop_front_safety_witness :
    ((TradingDataBuffer.new 1).ingestAll [[5]]).isSome = true ∧
    (TradingDataBuffer.new 0).add 7 = none :=
  ⟨claim_C10_pop_front_safety.1 1 (by decide) [[5]],
    claim_C10_pop_front_safety.2 7⟩

theorem tierList_map_capacity {bufs : List TradingDataBuffer}
    (ht : TradingDataService.TierList bufs) :
    bufs.map TradingDataBuffer.capacity =
      [10, 100, 1000, 10000, 100000, 1000000, 10000000, 100000000] := by
  obtain ⟨h8, hidx⟩ := ht
  apply List.ext_get_iff.mpr
  constructor
  · simp [h8]
  · intro n h1 h2
    rw [List.get_map]
    have hn : n < bufs.length := by simpa using h1
    have hcap := (hidx n hn).1
    rw [hcap]
    have hn8 : n < 8 := by omega
    interval_cases n <;> rfl

/-- C4: `add_batch_values` returns the batch-too-large error exactly when the
batch length exceeds 10000 (a batch of exactly 10000 is accepted), and on that
error the registry state is returned completely unchanged — no value reaches
any buffer and no entry is created even for a previously-unseen symbol. -/
theorem claim_C4_batch_limit (s : TradingDataService)
    (hs : TradingDataService.ServiceInv s) (sym : String) (vs : List ℚ) :
    (10000 < vs.length →
      s.add_batch_values sym vs =
        some (.error "Batch size exceeds maximum limit of 10000", s)) ∧
    (vs.length ≤ 10000 →
      ∃ s', s.add_batch_values sym vs = some (.ok (), s')) := by
  constructor
  · exact fun h => TradingDataService.add_batch_values_reject h
  · intro h
    obtain ⟨bufs', -, hcall⟩ := TradingDataService.add_batch_values_accept hs h
    exact ⟨_, hcall⟩

/-- Witness for C4: a batch of 10001 ones is rejected with the state unchanged. -/
theorem claim_C4_batch_limit_witness :
    TradingDataService.ServiceInv TradingDataService.new ∧
    10000 < (List.replicate 10001 (1 : ℚ)).length ∧
    TradingDataService.new.add_batch_values "A" (List.replicate 10001 (1 : ℚ)) =
      some (.error "Batch size exceeds maximum limit of 10000",
        TradingDataService.new) := by
  refine ⟨TradingDataService.new_serviceInv, by rw [List.length_replicate]; omega, ?_⟩
  exact (claim_C4_batch_limit TradingDataService.new
    TradingDataService.new_serviceInv "A" (List.replicate 10001 (1 : ℚ))).1
    (by rw [List.length_replicate]; omega)

/-- C5: `get_stats` yields the invalid-tier error exactly when the tier is
outside `[1, 8]`; with a valid tier it yields the symbol-not-found error when
the symbol has never been successfully ingested, and otherwise the snapshot of
that symbol's buffer at index `tier − 1`. -/
theorem claim_C5_query_cases (ops : List (String × List ℚ)) (s : TradingDataService)
    (hrun : TradingDataService.runOps TradingDataService.new ops = some s)
    (sym : String) (k : ℕ) :
    ((k < 1 ∨ k > 8) →
      s.get_stats sym k = .error "Invalid k input. Only values 1-8 are accepted.") ∧
    (1 ≤ k → k ≤ 8 →
      ((∀ op ∈ ops, op.1 = sym → 10000 < op.2.length) →
        s.get_stats sym k = .error "Symbol not found") ∧
      ((∃ op ∈ ops, op.1 = sym ∧ op.2.length ≤ 10000) →
        ∃ bufs, TradingDataService.lookupSym s.buffers sym = some bufs ∧
          ∃ hk : k - 1 < bufs.length,
            s.get_stats sym k = .ok ((bufs.get ⟨k - 1, hk⟩).get_stats))) := by
  have hs : TradingDataService.ServiceInv s :=
    TradingDataService.runOps_inv TradingDataService.new_serviceInv hrun
  have hiff := TradingDataService.runOps_lookup_none
    TradingDataService.new_serviceInv hrun sym
  have hnew : TradingDataService.lookupSym TradingDataService.new.buffers sym =
      none := rfl
  constructor
  · intro hk
    unfold TradingDataService.get_stats
    rw [if_pos hk]
  · intro hk1 hk8
    have hknot : ¬ (k < 1 ∨ k > 8) := by omega
    constructor
    · intro hnone
      have hln : TradingDataService.lookupSym s.buffers sym = none :=
        hiff.mpr ⟨hnew, hnone⟩
      unfold TradingDataService.get_stats
      rw [if_neg hknot, hln]
      rfl
    · rintro ⟨op, hop, hsym, hlen⟩
      rcases hl : TradingDataService.lookupSym s.buffers sym with _ | bufs
      · obtain ⟨-, hall⟩ := hiff.mp hl
        exact absurd (hall op hop hsym) (by omega)
      · have ht := hs _ (TradingDataService.lookupSym_mem hl)
        have h8 : bufs.length = 8 := ht.1
        have hklt : k - 1 < bufs.length := by omega
        refine ⟨bufs, rfl, hklt, ?_⟩
        unfold TradingDataService.get_stats
        rw [if_neg hknot, hl, Option.some_bind, List.get?_eq_get hklt]

/-- Witness for C5 on the empty trace: tier 9 is rejected as invalid, and a
never-ingested symbol is reported as not found at tier 1. -/
theorem claim_C5_query_cases_witness :
    TradingDataService.runOps TradingDataService.new [] =
      some TradingDataService.new ∧
    TradingDataService.new.get_stats "B" 9 =
      .error "Invalid k input. Only values 1-8 are accepted." ∧
    TradingDataService.new.get_stats "B" 1 = .error "Symbol not found" := by
  refine ⟨rfl, ?_, ?_⟩
  · exact (claim_C5_query_cases [] TradingDataService.new rfl "B" 9).1 (by decide)
  · exact ((claim_C5_query_cases [] TradingDataService.new rfl "B" 1).2
      (by decide) (by decide)).1 (by intro op hop; simp at hop)

/-- C6: every entry ever observable in the registry holds exactly 8 buffers
with tier `i` (1-indexed) of capacity `10^i`, pinned at every reachable state
(so they never change once created); and every successful ingest forwards the
same batch to each of the 8 tier buffers, in tier order. -/
theorem claim_C6_tier_structure :
    (∀ (ops : List (String × List ℚ)) (s : TradingDataService),
      TradingDataService.runOps TradingDataService.new ops = some s →
      ∀ sym bufs, TradingDataService.lookupSym s.buffers sym = some bufs →
        bufs.map TradingDataBuffer.capacity =
          [10, 100, 1000, 10000, 100000, 1000000, 10000000, 100000000]) ∧
    (∀ (s s' : TradingDataService) (sym : String) (vs : List ℚ),
      TradingDataService.ServiceInv s →
      s.add_batch_values sym vs = some (.ok (), s') →
      ∃ bufs',
        TradingDataService.addBatchAll
          ((TradingDataService.lookupSym s.buffers sym).getD
            TradingDataService.newSymbolBuffers) vs = some bufs' ∧
        TradingDataService.lookupSym s'.buffers sym = some bufs' ∧
        bufs'.length = 8 ∧
        ∀ i (hi : i < ((TradingDataService.lookupSym s.buffers sym).getD
              TradingDataService.newSymbolBuffers).length) (hi' : i < bufs'.length),
          (((TradingDataService.lookupSym s.buffers sym).getD
              TradingDataService.newSymbolBuffers).get ⟨i, hi⟩).add_batch vs =
            some (bufs'.get ⟨i, hi'⟩)) := by
  constructor
  · intro ops s hrun sym bufs hl
    have hs := TradingDataService.runOps_inv TradingDataService.new_serviceInv hrun
    exact tierList_map_capacity (hs _ (TradingDataService.lookupSym_mem hl))
  · intro s s' sym vs hs h
    by_cases hlen : vs.length > 10000
    · rw [TradingDataService.add_batch_values_reject hlen, Option.some_inj] at h
      injection h with h1 h2
      exact absurd h1 (by simp)
    · push_neg at hlen
      obtain ⟨bufs', hb, hcall⟩ := TradingDataService.add_batch_values_accept hs hlen
      rw [hcall, Option.some_inj] at h
      injection h with h1 h2
      subst h2
      have htl := TradingDataService.addBatchAll_tierList
        (TradingDataService.lookup_getD_tierList hs sym) hb
      obtain ⟨hlen8, hget⟩ := TradingDataService.addBatchAll_spec hb
      exact ⟨bufs', hb, TradingDataService.lookupSym_setEntry_self _ _ _, htl.1,
        fun i hi hi' => hget i hi hi'⟩

/-- Witness for C6: ingesting an empty batch for a fresh symbol creates the
8-tier entry with capacities 10, 100, …, 10^8. -/
theorem claim_C6_tier_structure_witness :
    TradingDataService.runOps TradingDataService.new [("A", [])] =
      some ⟨[("A", TradingDataService.newSymbolBuffers)]⟩ ∧
    TradingDataService.lookupSym [("A", TradingDataService.newSymbolBuffers)] "A" =
      some TradingDataService.newSymbolBuffers ∧
    TradingDataService.newSymbolBuffers.map TradingDataBuffer.capacity =
      [10, 100, 1000, 10000, 100000, 1000000, 10000000, 100000000] := by
  refine ⟨by with_unfolding_all rfl, by with_unfolding_all rfl, ?_⟩
  exact claim_C6_tier_structure.1 [("A", [])] ⟨[("A", TradingDataService.newSymbolBuffers)]⟩
    (by with_unfolding_all rfl) "A" TradingDataService.newSymbolBuffers
    (by with_unfolding_all rfl)
